import Mathlib

set_option maxRecDepth 4000

/-!
Shallow embedding of the rsc-boundary scanner (`main.go`).

Strings are modelled as lists of characters (`Str`).  The Go standard
library string helpers used by the scanner (`strings.TrimSpace`,
`strings.HasPrefix`, `strings.TrimPrefix`, `strings.TrimSuffix`,
`strings.Contains`, `strings.Split`) are modelled character by character
on the ASCII fragment the scanner manipulates; `filepath.Join` and
`filepath.Dir` are modelled on clean paths (Go's path cleaning of `..`
and duplicate separators is elided, which is invisible to every claim
considered here).  The filesystem is an explicit record of the queries
the scanner performs.
-/

abbrev Str := List Char

/-- The single-quote character, kept symbolic. -/
def sqc : Char := Char.ofNat 39

/-- ASCII part of the whitespace recognised by `strings.TrimSpace`
(`unicode.IsSpace`); the scanner only ever meets ASCII whitespace. -/
def isUniSpace (c : Char) : Bool :=
  c == ' ' || c == '\t' || c == '\n' || c == '\r' || c == '\x0b' || c == '\x0c'

/-- The regexp character class spelled backslash-s in `main.go`'s
patterns: tab, newline, form feed, carriage return, space. -/
def isRegexSpace (c : Char) : Bool :=
  c == ' ' || c == '\t' || c == '\n' || c == '\r' || c == '\x0c'

/-- The regexp character class spelled `[\w$]` in `main.go`'s patterns. -/
def isWordChar (c : Char) : Bool :=
  c.isAlpha || c.isDigit || c == '_' || c == '$'

/-- Model of `strings.HasPrefix s pre`. -/
def hasPre : Str → Str → Bool
  | _, [] => true
  | [], _ :: _ => false
  | c :: cs, p :: ps => c == p && hasPre cs ps

/-- Model of `strings.TrimPrefix s pre`. -/
def trimPre (s pre : Str) : Str :=
  if hasPre s pre then s.drop pre.length else s

/-- Model of `strings.HasSuffix s suf`. -/
def hasSuf (s suf : Str) : Bool := hasPre s.reverse suf.reverse

/-- Model of `strings.TrimSuffix s suf`. -/
def trimSuf (s suf : Str) : Str :=
  if hasSuf s suf then s.take (s.length - suf.length) else s

/-- Model of `strings.Contains s sub`. -/
def containsSub : Str → Str → Bool
  | [], sub => sub.isEmpty
  | c :: cs, sub => hasPre (c :: cs) sub || containsSub cs sub

/-- Model of `strings.TrimSpace`. -/
def trimSpace (s : Str) : Str :=
  ((s.dropWhile isUniSpace).reverse.dropWhile isUniSpace).reverse

/-- Model of `strings.TrimSuffix line ";"` as used by the directive
detector: drop at most one trailing semicolon. -/
def trimOneSemi (s : Str) : Str :=
  if s.getLast? == some ';' then s.dropLast else s

/-- Model of `strings.Split body ","`. -/
def splitComma : Str → List Str
  | [] => [[]]
  | c :: cs =>
      if c == ',' then [] :: splitComma cs
      else
        match splitComma cs with
        | [] => [[c]]
        | h :: t => (c :: h) :: t

/-- Model of `filepath.Join a b` on clean path segments. -/
def joinPath (a b : Str) : Str :=
  if a.isEmpty then b else if b.isEmpty then a else a ++ '/' :: b

/-- Model of `filepath.Dir` on clean paths. -/
def parentDir (p : Str) : Str :=
  let r := p.reverse.dropWhile (fun c => !(c == '/'))
  let r2 := r.dropWhile (fun c => c == '/')
  if r2.isEmpty then (if r.isEmpty then ['.'] else ['/']) else r2.reverse

/-- Model of `filepath.IsAbs`. -/
def isAbsPath (p : Str) : Bool := hasPre p ['/']

/-- The two recognised directive literals of `DefaultConfig`. -/
def dirSingle : Str := sqc :: "use client".toList ++ [sqc]

def dirDouble : Str := "\"use client\"".toList

/-- `Config` of `main.go`. -/
structure ScanConfig where
  directives : List Str
  searchExtensions : List Str
  maxReadBytes : Nat

/-- `DefaultConfig` of `main.go`. -/
def defaultConfig : ScanConfig :=
  { directives := [dirSingle, dirDouble]
  , searchExtensions := [".tsx".toList, ".ts".toList, ".jsx".toList, ".js".toList]
  , maxReadBytes := 4096 }

/-- The subset of `tsconfig.json` that `json.Decoder` extracts into
`TSConfig`: the `baseUrl` string and the contents of the decoded
`paths` map.  A Go map has no intrinsic order, so `paths` records the
key/value pairs only up to permutation; any run of the program observes
them in some permutation of this list. -/
structure TSConfigData where
  baseURL : Str
  paths : List (Str × List Str)
deriving DecidableEq

/-- The filesystem queries performed by the scanner.  `headLines` is
the line sequence obtained by `bufio.Scanner` from the first
`MaxReadBytes` bytes of a file (`none` on open error); `readLines` is
the full `io.ReadAll` content split on newlines (`none` on open or
read error); `readConfig` is the result of JSON-decoding a candidate
configuration file (`none` on open or decode error). -/
structure FS where
  isFile : Str → Bool
  isDir : Str → Bool
  headLines : Str → Option (List Str)
  readLines : Str → Option (List Str)
  readConfig : Str → Option TSConfigData

/-! ## Directive detector (`fileHasDirective`)

The Go loop is a per-line state machine: scanning at top level,
scanning inside an unterminated block comment, returned-true (a
directive was found), or broke out of the loop (real code reached).
The last two states absorb every further line, which models the early
`return true` and `break`. -/

inductive ScanState
  | top
  | inBlock
  | found
  | stopped
deriving DecidableEq

/-- The directive test applied to one trimmed line: strip at most one
trailing semicolon and compare with each configured directive. -/
def isDirectiveLine (dirs : List Str) (line : Str) : Bool :=
  dirs.any (fun d => trimOneSemi line == d)

/-- One iteration of the scanning loop of `fileHasDirective`, in the
exact order of the Go code: blank-line skip, block-comment skip,
directive test, line-comment skip, block-comment open, break. -/
def scanStep (dirs : List Str) (s : ScanState) (raw : Str) : ScanState :=
  match s with
  | .found => .found
  | .stopped => .stopped
  | .inBlock =>
      let line := trimSpace raw
      if line.isEmpty then .inBlock
      else if containsSub line "*/".toList then .top
      else .inBlock
  | .top =>
      let line := trimSpace raw
      if line.isEmpty then .top
      else if isDirectiveLine dirs line then .found
      else if hasPre line "//".toList then .top
      else if hasPre line "/*".toList then
        (if containsSub line "*/".toList then .top else .inBlock)
      else .stopped

def scanLines (dirs : List Str) (s : ScanState) (ls : List Str) : ScanState :=
  ls.foldl (scanStep dirs) s

/-- `fileHasDirective` restricted to the scanned line sequence. -/
def fileHasDirectiveLines (dirs : List Str) (ls : List Str) : Bool :=
  scanLines dirs .top ls == .found

/-- `fileHasDirective` of `main.go`: an unopenable file is reported
unmarked; otherwise the head lines are scanned. -/
def fileHasDirective (fs : FS) (cfg : ScanConfig) (p : Str) : Bool :=
  match fs.headLines p with
  | none => false
  | some ls => fileHasDirectiveLines cfg.directives ls

/-! ## Import statement extractor (`parseImports`, `parseImportStatement`)

The Go code drives three `regexp` patterns over each assembled import
statement.  Each pattern is embedded as an explicit matcher with the
leftmost / greedy / lazy behaviour the RE2 engine exhibits on the
newline-free statements the extractor assembles. -/

/-- The regexp test `^\s*import\s+type\s` that discards type-only
imports. -/
def isTypeImport (s : Str) : Bool :=
  let t := s.dropWhile isRegexSpace
  hasPre t "import".toList &&
    (let u := t.drop 6
     match u with
     | [] => false
     | c :: _ =>
       isRegexSpace c &&
         (let v := u.dropWhile isRegexSpace
          hasPre v "type".toList &&
            (match v.drop 4 with
             | [] => false
             | d :: _ => isRegexSpace d)))

def quoteChars : Str := [sqc, '"']

def isQuote (c : Char) : Bool := quoteChars.contains c

/-- A quoted module path at the start of `s`: the regexp fragment
spelled quote-class, one or more non-quote characters (captured), then
a closing quote-class character. -/
def matchQuoted (s : Str) : Option Str :=
  match s with
  | [] => none
  | q :: rest =>
      if isQuote q then
        let body := rest.takeWhile (fun c => !(isQuote c))
        if body.isEmpty then none
        else
          match rest.drop body.length with
          | [] => none
          | _ :: _ => some body
      else none

/-- `kw`, then one or more regexp spaces, then a quoted path, at the
start of `s`. -/
def matchKeywordQuoted (kw : Str) (s : Str) : Option Str :=
  if hasPre s kw then
    let u := s.drop kw.length
    let sp := u.takeWhile isRegexSpace
    if sp.isEmpty then none else matchQuoted (u.drop sp.length)
  else none

/-- The source-path regexp: the leftmost occurrence of either
`from` + spaces + quoted path or `import` + spaces + quoted path;
the captured group is the path body. -/
def findSource : Str → Option Str
  | [] => none
  | c :: cs =>
      match matchKeywordQuoted "from".toList (c :: cs) with
      | some b => some b
      | none =>
          match matchKeywordQuoted "import".toList (c :: cs) with
          | some b => some b
          | none => findSource cs

/-- Does `t` start with one or more regexp spaces, then `from`, then at
least one more regexp space (the tail of the clause regexp)? -/
def tailFromMatch (t : Str) : Bool :=
  let sp := t.takeWhile isRegexSpace
  if sp.isEmpty then false
  else
    let r := t.drop sp.length
    hasPre r "from".toList &&
      (match r.drop 4 with
       | [] => false
       | c :: _ => isRegexSpace c)

/-- Lazy search of the clause regexp: the shortest clause after which
spaces + `from` + space follows. -/
def clauseSearchAux : Str → Str → Option Str
  | acc, [] => if tailFromMatch [] then some acc.reverse else none
  | acc, c :: cs =>
      if tailFromMatch (c :: cs) then some acc.reverse
      else clauseSearchAux (c :: acc) cs

/-- The clause regexp `^\s*import\s+(.*?)\s+from\s+`.  The clause is
searched after the maximal space run following `import`; on the single
borderline input shape where RE2 backtracking would instead yield an
empty clause (statement text `import`, spaces, `from`, space, quoted
path) both readings produce the same `ImportInfo`, since an empty
clause and an absent clause are mapped to the same record below. -/
def findClause (stmt : Str) : Option Str :=
  let t := stmt.dropWhile isRegexSpace
  if hasPre t "import".toList then
    let u := t.drop 6
    match u with
    | [] => none
    | c :: _ =>
        if isRegexSpace c then clauseSearchAux [] (u.dropWhile isRegexSpace)
        else none
  else none

/-- `regexp.ReplaceAllString` of the anchored pattern `^type\s+` with
the empty string. -/
def stripTypeQual (s : Str) : Str :=
  if hasPre s "type".toList then
    match s.drop 4 with
    | [] => s
    | c :: _ => if isRegexSpace c then (s.drop 4).dropWhile isRegexSpace else s
  else s

/-- The clause pattern word-chars, `\s*`, comma, `\s*`, brace-open,
captured body, brace-close at end (default plus named imports). -/
def matchDefaultNamed (s : Str) : Option (Str × Str) :=
  let w := s.takeWhile isWordChar
  if w.isEmpty then none
  else
    match (s.drop w.length).dropWhile isRegexSpace with
    | ',' :: r2 =>
        (match r2.dropWhile isRegexSpace with
         | '\x7b' :: mid =>
             if mid.getLast? == some '\x7d' then some (w, mid.dropLast) else none
         | _ => none)
    | _ => none

/-- The clause pattern brace-open, captured body, brace-close at end
(named imports only). -/
def matchNamedOnly (s : Str) : Option Str :=
  match s with
  | '\x7b' :: mid => if mid.getLast? == some '\x7d' then some mid.dropLast else none
  | _ => none

/-- The clause pattern `^\*\s+as\s+[\w$]+$` (namespace import). -/
def matchNamespaceClause (s : Str) : Bool :=
  match s with
  | '*' :: r =>
      let sp := r.takeWhile isRegexSpace
      if sp.isEmpty then false
      else
        let r2 := r.drop sp.length
        hasPre r2 "as".toList &&
          (let r3 := r2.drop 2
           let sp2 := r3.takeWhile isRegexSpace
           if sp2.isEmpty then false
           else
             let r4 := r3.drop sp2.length
             !r4.isEmpty && r4.all isWordChar)
  | _ => false

/-- The per-entry regexp of `parseNamedSpecifiers`: anything, one or
more spaces, `as`, one or more spaces, a captured word-character run at
the end.  The capture is necessarily the maximal word-character suffix
of the entry. -/
def matchAsAlias (s : Str) : Option Str :=
  let rev := s.reverse
  let aliasRev := rev.takeWhile isWordChar
  if aliasRev.isEmpty then none
  else
    let r1 := rev.drop aliasRev.length
    let sp := r1.takeWhile isRegexSpace
    if sp.isEmpty then none
    else
      let r2 := r1.drop sp.length
      if hasPre r2 "sa".toList then
        match r2.drop 2 with
        | [] => none
        | c :: _ => if isRegexSpace c then some aliasRev.reverse else none
      else none

/-- The loop body of `parseNamedSpecifiers` applied to one
comma-separated chunk. -/
def parseNamedEntry (chunk : Str) : List Str :=
  let t := trimSpace chunk
  if t.isEmpty || hasPre t "type ".toList then []
  else
    match matchAsAlias t with
    | some a => [a]
    | none => [t]

/-- `parseNamedSpecifiers` of `main.go`. -/
def parseNamedSpecifiers (body : Str) : List Str :=
  (splitComma body).flatMap parseNamedEntry

/-- `ImportInfo` of `main.go`. -/
structure ImportInfo where
  source : Str
  specifiers : List Str
deriving DecidableEq

/-- `parseImportStatement` of `main.go`. -/
def parseImportStatement (stmt : Str) : Option ImportInfo :=
  if isTypeImport stmt then none
  else
    match findSource stmt with
    | none => none
    | some source =>
        match findClause stmt with
        | none => some ⟨source, []⟩
        | some clauseRaw =>
            let clauseText := trimSpace (stripTypeQual (trimSpace clauseRaw))
            if clauseText.isEmpty then some ⟨source, []⟩
            else
              match matchDefaultNamed clauseText with
              | some (w, body) => some ⟨source, trimSpace w :: parseNamedSpecifiers body⟩
              | none =>
                  match matchNamedOnly clauseText with
                  | some body => some ⟨source, parseNamedSpecifiers body⟩
                  | none =>
                      if matchNamespaceClause clauseText then some ⟨source, []⟩
                      else some ⟨source, [clauseText]⟩

/-- One iteration of the accumulation loop of `parseImports`: the state
is the records emitted so far and the current statement buffer (empty
when no statement is being accumulated). -/
def parseImportsStep (st : List ImportInfo × Str) (line : Str) : List ImportInfo × Str :=
  let trimmed := trimSpace line
  let cur :=
    if !st.2.isEmpty then st.2 ++ ' ' :: trimmed
    else if hasPre trimmed "import ".toList then trimmed
    else []
  if !cur.isEmpty && (containsSub cur ['"'] || containsSub cur [sqc]) then
    match parseImportStatement cur with
    | some imp => (st.1 ++ [imp], [])
    | none => (st.1, [])
  else (st.1, cur)

/-- `parseImports` of `main.go`. -/
def parseImports (lines : List Str) : List ImportInfo :=
  (lines.foldl parseImportsStep ([], [])).1

/-! ## Module path resolver (`expandPath`, `resolveImportPath`) -/

/-- `PathAlias` of `main.go` (fields `Alias` and `Target`). -/
structure PathAlias where
  aliasName : Str
  target : Str
deriving DecidableEq

/-- The extension-probing loop of `expandPath`: for each recognised
extension in order, append `base+ext` when it is an existing regular
file. -/
def extProbe (fs : FS) (base : Str) : List Str → List Str
  | [] => []
  | e :: rest =>
      (if fs.isFile (base ++ e) then [base ++ e] else []) ++ extProbe fs base rest

/-- The index-probing loop of `expandPath`: for each recognised
extension in order, append `<dir>/index<ext>` when it is an existing
regular file. -/
def idxProbe (fs : FS) (base : Str) : List Str → List Str
  | [] => []
  | e :: rest =>
      (if fs.isFile (joinPath base ("index".toList ++ e)) then
        [joinPath base ("index".toList ++ e)]
      else []) ++ idxProbe fs base rest

/-- `expandPath` of `main.go`: an existing regular file is returned
alone; otherwise the extension probes run, and then, whenever the base
is an existing directory, the index probes run as well. -/
def expandPath (fs : FS) (cfg : ScanConfig) (basePath : Str) : List Str :=
  if fs.isFile basePath then [basePath]
  else
    extProbe fs basePath cfg.searchExtensions ++
      (if fs.isDir basePath then idxProbe fs basePath cfg.searchExtensions else [])

/-- The alias loop of `resolveImportPath`: every entry whose alias is a
string-prefix of the import path contributes the expansion of its
target joined with the remainder (the prefix and at most one following
slash stripped). -/
def aliasCandidates (fs : FS) (cfg : ScanConfig) (importPath : Str) : List PathAlias → List Str
  | [] => []
  | a :: rest =>
      (if hasPre importPath a.aliasName then
        expandPath fs cfg
          (joinPath a.target (trimPre (trimPre importPath a.aliasName) "/".toList))
      else []) ++ aliasCandidates fs cfg importPath rest

/-- `resolveImportPath` of `main.go`. -/
def resolveImportPath (fs : FS) (cfg : ScanConfig) (baseDir importPath : Str)
    (aliases : List PathAlias) : List Str :=
  if hasPre importPath ".".toList then
    expandPath fs cfg (joinPath baseDir importPath)
  else
    aliasCandidates fs cfg importPath aliases

/-! ## Alias table loader (`loadPathAliases`, `parseAliases`)

`parseAliases` ranges over the decoded `paths` map.  Go map iteration
order is unspecified and varies between runs, so the loop is embedded
over an explicit iteration sequence `iter`; a run of the program
corresponds to some `iter` that is a permutation of the decoded
`paths` contents. -/

/-- The body of `parseAliases` after decoding, iterating the `paths`
map in the order `iter`: entries with no target are skipped, wildcard
markers are stripped from pattern and first target, a leading `./` is
stripped from the target, and a relative target is resolved against the
base URL (itself resolved against the configuration file's
directory). -/
def parseAliasesOrd (cfgDir : Str) (data : TSConfigData)
    (iter : List (Str × List Str)) : List PathAlias :=
  let baseURL0 := if data.baseURL.isEmpty then ".".toList else data.baseURL
  let baseURL := if isAbsPath baseURL0 then baseURL0 else joinPath cfgDir baseURL0
  iter.filterMap (fun pr =>
    match pr.2 with
    | [] => none
    | t0 :: _ =>
        let a := trimSuf (trimSuf pr.1 "/*".toList) "*".toList
        let tgt := trimPre (trimSuf (trimSuf t0 "/*".toList) "*".toList) "./".toList
        some { aliasName := a
             , target := if isAbsPath tgt then tgt else joinPath baseURL tgt })

/-- `parseAliases` of `main.go` for a given iteration order: `none`
models the open/decode error return. -/
def parseAliasesFS (fs : FS) (iter : TSConfigData → List (Str × List Str))
    (configPath : Str) : Option (List PathAlias) :=
  match fs.readConfig configPath with
  | none => none
  | some data => some (parseAliasesOrd (parentDir configPath) data (iter data))

/-- The recognised configuration file names, in priority order. -/
def configNames : List Str :=
  ["tsconfig.json".toList, "jsconfig.json".toList, "tsconfig.base.json".toList]

/-- The per-directory probe of `loadPathAliases`: the first recognised
configuration file name that exists in `dir`. -/
def findConfigIn (fs : FS) (dir : Str) : Option Str :=
  (configNames.map (joinPath dir)).find? fs.isFile

/-- The upward-search loop of `loadPathAliases`, with explicit fuel.
The Go loop terminates because `filepath.Dir` reaches a fixpoint; the
fuel provided by `loadPathAliases` below covers every step of that
descent, and exhausted fuel returns the same empty result as reaching
the root. -/
def loadPathAliasesAux (fs : FS) (iter : TSConfigData → List (Str × List Str)) :
    Nat → Str → Option (List PathAlias)
  | 0, _ => some []
  | fuel + 1, dir =>
      match findConfigIn fs dir with
      | some p => parseAliasesFS fs iter p
      | none =>
          let parent := parentDir dir
          if parent == dir then some []
          else loadPathAliasesAux fs iter fuel parent

/-- `loadPathAliases` of `main.go`: `none` models the error return of a
found-but-unparsable configuration; `some []` models no configuration
found. -/
def loadPathAliases (fs : FS) (iter : TSConfigData → List (Str × List Str))
    (baseDir : Str) : Option (List PathAlias) :=
  loadPathAliasesAux fs iter (baseDir.length + 2) baseDir

/-! ## Propagation engine and usage matcher (`scanFile`,
`containsJSXTag`) -/

/-- The word-boundary assertion placed after the quoted component name
in the `containsJSXTag` pattern. -/
def tagBoundaryOk (name after : Str) : Bool :=
  let prevWord :=
    match name.getLast? with
    | some c => isWordChar c
    | none => false
  let nextWord :=
    match after with
    | [] => false
    | c :: _ => isWordChar c
  prevWord != nextWord

/-- `containsJSXTag` of `main.go`: the line contains an occurrence of
opening angle bracket, optional regexp spaces, the exact component
name, and a word boundary.  (The name is quoted verbatim into the
pattern; marked names are trimmed identifier-like tokens, in particular
never starting with a space.) -/
def containsJSXTag (line name : Str) : Bool :=
  match line with
  | [] => false
  | c :: cs =>
      (c == '<' &&
        (let t := cs.dropWhile isRegexSpace
         hasPre t name && tagBoundaryOk name (t.drop name.length))) ||
      containsJSXTag cs name

/-- The marking loop of `scanFile`: an import whose candidates include
a directive-bearing file contributes all of its bound names (the Go
`break` only stops probing further candidates; the names are added
once). -/
def clientComponents (fs : FS) (cfg : ScanConfig) (aliases : List PathAlias)
    (baseDir : Str) (lines : List Str) : List Str :=
  (parseImports lines).foldl
    (fun acc imp =>
      if (resolveImportPath fs cfg baseDir imp.source aliases).any
          (fileHasDirective fs cfg) then
        acc ++ imp.specifiers
      else acc) []

/-- A reported line, in the grep-format output of `scanFile`. -/
structure ReportLine where
  filePath : Str
  lineNumber : Nat
  lineText : Str
deriving DecidableEq

/-- `scanFile` of `main.go` as the list of report lines it prints: an
unreadable file reports nothing (the error is only logged), a file
with no imports or no marked names reports nothing, and otherwise each
line containing a tag usage of some marked name is reported once with
its one-based number. -/
def scanFileReport (fs : FS) (cfg : ScanConfig)
    (iter : TSConfigData → List (Str × List Str)) (filePath : Str) : List ReportLine :=
  match fs.readLines filePath with
  | none => []
  | some lines =>
      let imports := parseImports lines
      if imports.isEmpty then []
      else
        let baseDir := parentDir filePath
        let aliases := (loadPathAliases fs iter baseDir).getD []
        let cc := clientComponents fs cfg aliases baseDir lines
        if cc.isEmpty then []
        else
          lines.enum.filterMap (fun p =>
            if cc.any (fun n => containsJSXTag p.2 n) then
              some ⟨filePath, p.1 + 1, p.2⟩
            else none)

/-- The per-file sequencing of `scanPath`: files are processed one
after another, each contributing its own report lines. -/
def scanFiles (fs : FS) (cfg : ScanConfig)
    (iter : TSConfigData → List (Str × List Str)) : List Str → List ReportLine
  | [] => []
  | f :: rest => scanFileReport fs cfg iter f ++ scanFiles fs cfg iter rest

/-! ## Spec-side characterization used by the candidate-expansion claim -/

/-- Modelled from the spec: the base+extension candidates, as the
recognised extensions that name existing regular files, in configured
order. -/
def extCandidatesSpec (fs : FS) (cfg : ScanConfig) (base : Str) : List Str :=
  (cfg.searchExtensions.filter (fun e => fs.isFile (base ++ e))).map (fun e => base ++ e)

/-- Modelled from the spec: the directory-index candidates, as the
recognised extensions whose `<dir>/index<ext>` names existing regular
files, in configured order. -/
def idxCandidatesSpec (fs : FS) (cfg : ScanConfig) (base : Str) : List Str :=
  (cfg.searchExtensions.filter
      (fun e => fs.isFile (joinPath base ("index".toList ++ e)))).map
    (fun e => joinPath base ("index".toList ++ e))

/-- Modelled from the spec as amended: an existing regular file is the
sole candidate; otherwise the base+extension candidates followed by,
whenever the base is an existing directory, the index candidates —
the index rule is not suppressed by a successful extension rule. -/
def expandPathSpec (fs : FS) (cfg : ScanConfig) (base : Str) : List Str :=
  if fs.isFile base then [base]
  else
    extCandidatesSpec fs cfg base ++
      (if fs.isDir base then idxCandidatesSpec fs cfg base else [])

/-! ## Basic lemmas about the scan state machine -/

theorem scanLines_nil (dirs : List Str) (s : ScanState) : scanLines dirs s [] = s := rfl

theorem scanLines_cons (dirs : List Str) (s : ScanState) (l : Str) (ls : List Str) :
    scanLines dirs s (l :: ls) = scanLines dirs (scanStep dirs s l) ls := rfl

theorem scanLines_found (dirs : List Str) (ls : List Str) :
    scanLines dirs .found ls = .found := by
  induction ls with
  | nil => rfl
  | cons l ls ih => simpa [scanLines_cons] using ih

theorem scanLines_stopped (dirs : List Str) (ls : List Str) :
    scanLines dirs .stopped ls = .stopped := by
  induction ls with
  | nil => rfl
  | cons l ls ih => simpa [scanLines_cons] using ih

theorem scanStep_inBlock_or (dirs : List Str) (l : Str) :
    scanStep dirs .inBlock l = .top ∨ scanStep dirs .inBlock l = .inBlock := by
  unfold scanStep
  by_cases he : (trimSpace l).isEmpty <;>
    by_cases hc : containsSub (trimSpace l) "*/".toList <;>
    simp [he, hc]

theorem hasPre_iff (s p : Str) : hasPre s p = true ↔ ∃ r, s = p ++ r := by
  induction p generalizing s with
  | nil => simp [hasPre]
  | cons ph pt ih =>
      cases s with
      | nil => simp [hasPre]
      | cons sh st =>
          rw [show hasPre (sh :: st) (ph :: pt) = ((sh == ph) && hasPre st pt) from rfl]
          simp only [Bool.and_eq_true, beq_iff_eq, ih]
          constructor
          · rintro ⟨rfl, r, rfl⟩; exact ⟨r, rfl⟩
          · rintro ⟨r, h⟩
            injection h with h1 h2
            exact ⟨h1, r, h2⟩

theorem trimOneSemi_eq_iff (t d : Str) (hd : d.getLast? ≠ some ';') :
    trimOneSemi t = d ↔ t = d ∨ t = d ++ [';'] := by
  unfold trimOneSemi
  by_cases h : t.getLast? = some ';'
  · rw [if_pos (by simp [h])]
    constructor
    · intro hdl
      right
      have ht : t ≠ [] := by rintro rfl; simp at h
      have hlast : t.getLast ht = ';' := by
        have := List.getLast?_eq_getLast t ht
        rw [h] at this
        exact (Option.some.injEq _ _ ▸ this.symm)
      calc t = t.dropLast ++ [t.getLast ht] := (List.dropLast_append_getLast ht).symm
        _ = d ++ [';'] := by rw [hdl, hlast]
    · rintro (rfl | rfl)
      · exact absurd h hd
      · exact List.dropLast_concat
  · rw [if_neg (by simp [h])]
    constructor
    · intro hh; exact Or.inl hh
    · rintro (rfl | rfl)
      · rfl
      · exact absurd (by simp) h

theorem isDirectiveLine_default_iff (t : Str) :
    isDirectiveLine defaultConfig.directives t = true ↔
      (t = dirSingle ∨ t = dirSingle ++ [';'] ∨ t = dirDouble ∨ t = dirDouble ++ [';']) := by
  show isDirectiveLine [dirSingle, dirDouble] t = true ↔ _
  unfold isDirectiveLine
  simp only [List.any_cons, List.any_nil, Bool.or_false, Bool.or_eq_true, beq_iff_eq]
  rw [trimOneSemi_eq_iff t dirSingle (by decide), trimOneSemi_eq_iff t dirDouble (by decide)]
  tauto

/-- C6: for every scanned line of a candidate file, the directive
matches (the scan returns marked on that line from the plain-prologue
state) if and only if the whole trimmed line, after removing at most
one trailing semicolon, exactly equals one of the two recognised
directive literals — equivalently, the trimmed line is a directive
literal with or without one trailing semicolon; partial or
commented-out directive text never matches. -/
theorem c6_directive_match_exact (line : Str) :
    scanStep defaultConfig.directives .top line = .found ↔
      (trimSpace line = dirSingle ∨ trimSpace line = dirSingle ++ [';'] ∨
       trimSpace line = dirDouble ∨ trimSpace line = dirDouble ++ [';']) := by
  rw [← isDirectiveLine_default_iff]
  show (if (trimSpace line).isEmpty then ScanState.top
        else if isDirectiveLine defaultConfig.directives (trimSpace line) then ScanState.found
        else if hasPre (trimSpace line) "//".toList then ScanState.top
        else if hasPre (trimSpace line) "/*".toList then
          (if containsSub (trimSpace line) "*/".toList then ScanState.top
           else ScanState.inBlock)
        else ScanState.stopped) = ScanState.found ↔
      isDirectiveLine defaultConfig.directives (trimSpace line) = true
  constructor
  · intro h
    split_ifs at h
    assumption
  · intro hd
    have he : ¬ (trimSpace line).isEmpty = true := by
      intro he
      rw [List.isEmpty_iff.mp he] at hd
      revert hd
      decide
    simp [he, hd]

theorem trimOneSemi_slash (rest : Str) :
    ∃ r, trimOneSemi ('/' :: rest) = '/' :: r := by
  unfold trimOneSemi
  by_cases h : ('/' :: rest).getLast? = some ';'
  · rw [if_pos (by simp [h])]
    cases rest with
    | nil => simp at h
    | cons x xs =>
        exact ⟨(x :: xs).dropLast, rfl⟩
  · rw [if_neg (by simp [h])]
    exact ⟨rest, rfl⟩

theorem slash_not_directive (rest : Str) :
    isDirectiveLine defaultConfig.directives ('/' :: rest) = false := by
  obtain ⟨r, hr⟩ := trimOneSemi_slash rest
  show isDirectiveLine [dirSingle, dirDouble] ('/' :: rest) = false
  unfold isDirectiveLine
  simp only [List.any_cons, List.any_nil, Bool.or_false, hr, Bool.or_eq_false_iff]
  constructor
  · rw [beq_eq_false_iff_ne]
    intro hcon
    rw [dirSingle] at hcon
    injection hcon with h1 _
    exact absurd h1 (by decide)
  · rw [beq_eq_false_iff_ne]
    intro hcon
    rw [show dirDouble = '"' :: "use client\"".toList from rfl] at hcon
    injection hcon with h1 _
    exact absurd h1 (by decide)

/-- C9: a scanned line whose trimmed text begins with a block-comment
open marker and also contains a close marker is skipped entirely by the
directive detector (the scan state stays in the plain-prologue state,
both from the plain state and from inside a block comment): text after
the close marker on that line can neither match a directive nor stop
the prologue scan. -/
theorem c9_oneline_block_comment_skipped (line : Str)
    (h1 : hasPre (trimSpace line) "/*".toList = true)
    (h2 : containsSub (trimSpace line) "*/".toList = true) :
    scanStep defaultConfig.directives .top line = .top ∧
    scanStep defaultConfig.directives .inBlock line = .top := by
  obtain ⟨r, hr⟩ := (hasPre_iff _ _).mp h1
  have he : (trimSpace line).isEmpty = false := by rw [hr]; rfl
  have hd : isDirectiveLine defaultConfig.directives (trimSpace line) = false := by
    rw [hr]; exact slash_not_directive _
  have hlc : hasPre (trimSpace line) "//".toList = false := by
    rw [hr]
    rfl
  constructor
  · show (if (trimSpace line).isEmpty then ScanState.top
          else if isDirectiveLine defaultConfig.directives (trimSpace line) then .found
          else if hasPre (trimSpace line) "//".toList then .top
          else if hasPre (trimSpace line) "/*".toList then
            (if containsSub (trimSpace line) "*/".toList then ScanState.top
             else ScanState.inBlock)
          else ScanState.stopped) = ScanState.top
    have h1l : hasPre (trimSpace line) ['/', '*'] = true := h1
    have h2l : containsSub (trimSpace line) ['*', '/'] = true := h2
    rw [he, hd, hlc]
    simp [h1l, h2l]
  · show (if (trimSpace line).isEmpty then ScanState.inBlock
          else if containsSub (trimSpace line) "*/".toList then ScanState.top
          else ScanState.inBlock) = ScanState.top
    have h2l : containsSub (trimSpace line) ['*', '/'] = true := h2
    rw [he]
    simp [h2l]

/-- Witness for C9 at a concrete line. -/
theorem c9_witness :
    scanStep defaultConfig.directives .top "/* note */ doWork()".toList = .top ∧
    scanStep defaultConfig.directives .inBlock "/* note */ doWork()".toList = .top :=
  c9_oneline_block_comment_skipped "/* note */ doWork()".toList (by decide) (by decide)

theorem scan_found_iff (dirs : List Str) (ls : List Str) :
    ∀ s : ScanState, (s = .top ∨ s = .inBlock) →
      (scanLines dirs s ls = .found ↔
        ∃ pre dline post, ls = pre ++ dline :: post ∧
          scanLines dirs s pre = .top ∧ scanStep dirs .top dline = .found) := by
  induction ls with
  | nil =>
      intro s hs
      constructor
      · intro h
        rw [scanLines_nil] at h
        rcases hs with rfl | rfl <;> exact absurd h (by decide)
      · rintro ⟨pre, dline, post, heq, -, -⟩
        exact absurd heq (by simp)
  | cons l ls ih =>
      intro s hs
      rw [scanLines_cons]
      rcases hs with rfl | rfl
      · -- from the plain-prologue state
        cases h : scanStep dirs ScanState.top l with
        | found =>
            rw [scanLines_found]
            constructor
            · intro _
              exact ⟨[], l, ls, rfl, rfl, h⟩
            · intro _
              rfl
        | stopped =>
            rw [scanLines_stopped]
            constructor
            · intro hcon
              exact absurd hcon (by decide)
            · rintro ⟨pre, dline, post, heq, hpre, hdl⟩
              exfalso
              cases pre with
              | nil =>
                  obtain ⟨rfl, -⟩ := List.cons.injEq .. ▸ heq
                  rw [h] at hdl
                  exact absurd hdl (by decide)
              | cons p0 pre2 =>
                  obtain ⟨rfl, -⟩ := List.cons.injEq .. ▸ heq
                  rw [scanLines_cons, h, scanLines_stopped] at hpre
                  exact absurd hpre (by decide)
        | top =>
            rw [ih ScanState.top (Or.inl rfl)]
            constructor
            · rintro ⟨pre, dline, post, heq, hpre, hdl⟩
              refine ⟨l :: pre, dline, post, by rw [heq, List.cons_append], ?_, hdl⟩
              rw [scanLines_cons, h]
              exact hpre
            · rintro ⟨pre, dline, post, heq, hpre, hdl⟩
              cases pre with
              | nil =>
                  obtain ⟨rfl, -⟩ := List.cons.injEq .. ▸ heq
                  rw [h] at hdl
                  exact absurd hdl (by decide)
              | cons p0 pre2 =>
                  obtain ⟨rfl, htl⟩ := List.cons.injEq .. ▸ heq
                  rw [scanLines_cons, h] at hpre
                  exact ⟨pre2, dline, post, htl, hpre, hdl⟩
        | inBlock =>
            rw [ih ScanState.inBlock (Or.inr rfl)]
            constructor
            · rintro ⟨pre, dline, post, heq, hpre, hdl⟩
              refine ⟨l :: pre, dline, post, by rw [heq, List.cons_append], ?_, hdl⟩
              rw [scanLines_cons, h]
              exact hpre
            · rintro ⟨pre, dline, post, heq, hpre, hdl⟩
              cases pre with
              | nil =>
                  obtain ⟨rfl, -⟩ := List.cons.injEq .. ▸ heq
                  rw [h] at hdl
                  exact absurd hdl (by decide)
              | cons p0 pre2 =>
                  obtain ⟨rfl, htl⟩ := List.cons.injEq .. ▸ heq
                  rw [scanLines_cons, h] at hpre
                  exact ⟨pre2, dline, post, htl, hpre, hdl⟩
      · -- from inside a block comment
        cases h : scanStep dirs ScanState.inBlock l with
        | found =>
            rcases scanStep_inBlock_or dirs l with hcon | hcon <;>
              (rw [h] at hcon; exact absurd hcon (by decide))
        | stopped =>
            rcases scanStep_inBlock_or dirs l with hcon | hcon <;>
              (rw [h] at hcon; exact absurd hcon (by decide))
        | top =>
            rw [ih ScanState.top (Or.inl rfl)]
            constructor
            · rintro ⟨pre, dline, post, heq, hpre, hdl⟩
              refine ⟨l :: pre, dline, post, by rw [heq, List.cons_append], ?_, hdl⟩
              rw [scanLines_cons, h]
              exact hpre
            · rintro ⟨pre, dline, post, heq, hpre, hdl⟩
              cases pre with
              | nil =>
                  rw [scanLines_nil] at hpre
                  exact absurd hpre (by decide)
              | cons p0 pre2 =>
                  obtain ⟨rfl, htl⟩ := List.cons.injEq .. ▸ heq
                  rw [scanLines_cons, h] at hpre
                  exact ⟨pre2, dline, post, htl, hpre, hdl⟩
        | inBlock =>
            rw [ih ScanState.inBlock (Or.inr rfl)]
            constructor
            · rintro ⟨pre, dline, post, heq, hpre, hdl⟩
              refine ⟨l :: pre, dline, post, by rw [heq, List.cons_append], ?_, hdl⟩
              rw [scanLines_cons, h]
              exact hpre
            · rintro ⟨pre, dline, post, heq, hpre, hdl⟩
              cases pre with
              | nil =>
                  rw [scanLines_nil] at hpre
                  exact absurd hpre (by decide)
              | cons p0 pre2 =>
                  obtain ⟨rfl, htl⟩ := List.cons.injEq .. ▸ heq
                  rw [scanLines_cons, h] at hpre
                  exact ⟨pre2, dline, post, htl, hpre, hdl⟩

/-- C1: the directive detector returns marked exactly when some line is
a directive hit reached while the scan is still in the plain-prologue
state (every earlier line was blank or comment-skipped); and on
reaching a line that stops the scan (non-blank, not a comment, not the
directive), the result is unmarked no matter what follows — a
directive after real code is never detected. -/
theorem c1_prologue_only_detection (dirs : List Str) :
    (∀ ls : List Str, fileHasDirectiveLines dirs ls = true ↔
        ∃ pre dline post, ls = pre ++ dline :: post ∧
          scanLines dirs .top pre = .top ∧ scanStep dirs .top dline = .found) ∧
    (∀ pre stopLine post, scanLines dirs .top pre = .top →
        scanStep dirs .top stopLine = .stopped →
        fileHasDirectiveLines dirs (pre ++ stopLine :: post) = false) := by
  constructor
  · intro ls
    rw [show fileHasDirectiveLines dirs ls = true ↔ scanLines dirs .top ls = .found by
          unfold fileHasDirectiveLines; rw [beq_iff_eq]]
    exact scan_found_iff dirs ls ScanState.top (Or.inl rfl)
  · intro pre stopLine post hpre hstop
    unfold fileHasDirectiveLines scanLines
    rw [List.foldl_append]
    show (scanLines dirs (scanLines dirs ScanState.top pre) (stopLine :: post) == .found) = false
    rw [hpre, scanLines_cons, hstop, scanLines_stopped]
    rfl

/-- Witness for C1: once real code is reached, a later directive is
not detected. -/
theorem c1_witness :
    fileHasDirectiveLines defaultConfig.directives
      ["// header".toList, "const x = 1;".toList, dirSingle] = false := by
  have h := (c1_prologue_only_detection defaultConfig.directives).2
    ["// header".toList] "const x = 1;".toList [dirSingle]
    (by decide) (by decide)
  simpa using h

/-! ## Concrete filesystem fixtures used by witnesses and
counterexamples -/

/-- A filesystem on which every query fails. -/
def emptyFS : FS :=
  { isFile := fun _ => false
  , isDir := fun _ => false
  , headLines := fun _ => none
  , readLines := fun _ => none
  , readConfig := fun _ => none }

/-- A filesystem holding both a regular file `p.tsx` and a directory
`p` containing `index.tsx` — a base path for which the extension rule
and the index rule of `expandPath` both yield candidates. -/
def c2FS : FS :=
  { isFile := fun p => p == "p.tsx".toList || p == "p/index.tsx".toList
  , isDir := fun p => p == "p".toList
  , headLines := fun _ => none
  , readLines := fun _ => none
  , readConfig := fun _ => none }

/-- Counterexample to C2 as stated: for base path `p`, the earlier
extension rule yields the file `p.tsx`, yet the directory-index
candidate `p/index.tsx` is still added — candidate expansion does not
stop at the first rule that yields a file, and the extension matches
are not the only candidates. -/
theorem c2_counterexample :
    c2FS.isFile "p".toList = false ∧
    c2FS.isFile ("p".toList ++ ".tsx".toList) = true ∧
    expandPath c2FS defaultConfig "p".toList
      = ["p.tsx".toList, "p/index.tsx".toList] := by
  decide

theorem extProbe_eq (fs : FS) (base : Str) (exts : List Str) :
    extProbe fs base exts
      = (exts.filter (fun e => fs.isFile (base ++ e))).map (fun e => base ++ e) := by
  induction exts with
  | nil => rfl
  | cons e rest ih =>
      show (if fs.isFile (base ++ e) then [base ++ e] else []) ++ extProbe fs base rest = _
      rw [ih, List.filter_cons]
      by_cases h : fs.isFile (base ++ e) = true
      · rw [if_pos h, if_pos h, List.map_cons, List.singleton_append]
      · rw [if_neg h, if_neg h, List.nil_append]

theorem idxProbe_eq (fs : FS) (base : Str) (exts : List Str) :
    idxProbe fs base exts
      = (exts.filter (fun e => fs.isFile (joinPath base ("index".toList ++ e)))).map
          (fun e => joinPath base ("index".toList ++ e)) := by
  induction exts with
  | nil => rfl
  | cons e rest ih =>
      show (if fs.isFile (joinPath base ("index".toList ++ e))
            then [joinPath base ("index".toList ++ e)] else []) ++ idxProbe fs base rest = _
      rw [ih, List.filter_cons]
      by_cases h : fs.isFile (joinPath base ("index".toList ++ e)) = true
      · rw [if_pos h, if_pos h, List.map_cons, List.singleton_append]
      · rw [if_neg h, if_neg h, List.nil_append]

/-- C2 as amended: an existing regular file short-circuits expansion
and is the sole candidate; otherwise the candidates are exactly the
base+extension matches followed by — whenever the base path is an
existing directory, regardless of whether the extension rule already
yielded files — the directory-index matches. -/
theorem c2_expansion_amended (fs : FS) (cfg : ScanConfig) (base : Str) :
    expandPath fs cfg base = expandPathSpec fs cfg base := by
  unfold expandPath expandPathSpec extCandidatesSpec idxCandidatesSpec
  rw [extProbe_eq, idxProbe_eq]

theorem mem_aliasCandidates_of_mem (fs : FS) (cfg : ScanConfig) (sp : Str)
    (a : PathAlias) (c : Str) :
    ∀ aliases : List PathAlias, a ∈ aliases →
      hasPre sp a.aliasName = true →
      c ∈ expandPath fs cfg
            (joinPath a.target (trimPre (trimPre sp a.aliasName) "/".toList)) →
      c ∈ aliasCandidates fs cfg sp aliases := by
  intro aliases
  induction aliases with
  | nil => intro h; exact absurd h (List.not_mem_nil a)
  | cons a0 rest ih =>
      intro hmem hpre hc
      show c ∈ (if hasPre sp a0.aliasName then
          expandPath fs cfg
            (joinPath a0.target (trimPre (trimPre sp a0.aliasName) "/".toList))
        else []) ++ aliasCandidates fs cfg sp rest
      rcases List.mem_cons.mp hmem with rfl | hmem2
      · rw [if_pos hpre]
        exact List.mem_append_left _ hc
      · exact List.mem_append_right _ (ih hmem2 hpre hc)

/-- C7: for a non-relative specifier, every alias entry whose pattern
is a string-prefix of the specifier contributes its candidates — all
matching aliases are tried, not just the first: each candidate obtained
by joining the stripped remainder onto that entry's target and
expanding appears in the resolver's output. -/
theorem c7_every_matching_alias_contributes (fs : FS) (cfg : ScanConfig)
    (baseDir sp : Str) (aliases : List PathAlias) (a : PathAlias) (c : Str)
    (hrel : hasPre sp ".".toList = false)
    (hmem : a ∈ aliases)
    (hpre : hasPre sp a.aliasName = true)
    (hc : c ∈ expandPath fs cfg
            (joinPath a.target (trimPre (trimPre sp a.aliasName) "/".toList))) :
    c ∈ resolveImportPath fs cfg baseDir sp aliases := by
  unfold resolveImportPath
  rw [if_neg (by simp only [Bool.not_eq_true]; exact hrel)]
  exact mem_aliasCandidates_of_mem fs cfg sp a c aliases hmem hpre hc

/-- Fixture for C7: two alias entries whose patterns both
string-prefix the specifier `@c/b`. -/
def c7Aliases : List PathAlias :=
  [ { aliasName := "@".toList, target := "/x".toList }
  , { aliasName := "@c".toList, target := "/y".toList } ]

/-- Fixture filesystem for C7: targets reachable through both matching
aliases exist. -/
def c7FS : FS :=
  { isFile := fun p => p == "/x/c/b".toList || p == "/y/b".toList
  , isDir := fun _ => false
  , headLines := fun _ => none
  , readLines := fun _ => none
  , readConfig := fun _ => none }

/-- Witness for C7: the candidate contributed by the second matching
alias entry is in the resolver output. -/
theorem c7_witness :
    "/y/b".toList ∈
      resolveImportPath c7FS defaultConfig "/app".toList "@c/b".toList c7Aliases :=
  c7_every_matching_alias_contributes c7FS defaultConfig "/app".toList "@c/b".toList
    c7Aliases { aliasName := "@c".toList, target := "/y".toList } "/y/b".toList
    (by decide) (by decide) (by decide) (by decide)

theorem parseAliasesOrd_perm (cfgDir : Str) (data : TSConfigData)
    (it1 it2 : List (Str × List Str)) (h : it1.Perm it2) :
    (parseAliasesOrd cfgDir data it1).Perm (parseAliasesOrd cfgDir data it2) := by
  unfold parseAliasesOrd
  exact List.Perm.filterMap _ h

theorem aliasCandidates_perm (fs : FS) (cfg : ScanConfig) (sp : Str)
    {l1 l2 : List PathAlias} (h : l1.Perm l2) :
    (aliasCandidates fs cfg sp l1).Perm (aliasCandidates fs cfg sp l2) := by
  induction h with
  | nil => exact List.Perm.refl _
  | cons a h ih =>
      simp only [aliasCandidates]
      exact List.Perm.append_left _ ih
  | swap a b l =>
      simp only [aliasCandidates]
      rw [← List.append_assoc, ← List.append_assoc]
      exact List.Perm.append_right _ List.perm_append_comm
  | trans h1 h2 ih1 ih2 => exact ih1.trans ih2

/-- Fixture for C3: a configuration with two path mappings whose
patterns both match the specifier `@a/m`. -/
def c3Data : TSConfigData :=
  { baseURL := "/proj".toList
  , paths := [("@".toList, ["u".toList]), ("@a".toList, ["v".toList])] }

/-- The same map contents in the other iteration order. -/
def c3It2 : List (Str × List Str) :=
  [("@a".toList, ["v".toList]), ("@".toList, ["u".toList])]

/-- Fixture filesystem for C3: the files reachable through both
matching aliases exist. -/
def c3FS : FS :=
  { isFile := fun p => p == "/proj/u/a/m".toList || p == "/proj/v/m".toList
  , isDir := fun _ => false
  , headLines := fun _ => none
  , readLines := fun _ => none
  , readConfig := fun p =>
      if p == "/proj/tsconfig.json".toList then some c3Data else none }

/-- Counterexample to C3 as stated: the alias loader ranges over a Go
map, so two runs may observe the same configuration contents in two
different orders (both permutations of the decoded `paths` map); the
two orders produce differently-ordered alias tables, and for a
specifier matched by both aliases the two runs produce
differently-ordered candidate lists.  There is no "configuration key
order" the loader follows. -/
theorem c3_counterexample :
    c3It2.Perm c3Data.paths ∧
    parseAliasesOrd "/proj".toList c3Data c3Data.paths ≠
      parseAliasesOrd "/proj".toList c3Data c3It2 ∧
    resolveImportPath c3FS defaultConfig "/proj/app".toList "@a/m".toList
        (parseAliasesOrd "/proj".toList c3Data c3Data.paths) ≠
      resolveImportPath c3FS defaultConfig "/proj/app".toList "@a/m".toList
        (parseAliasesOrd "/proj".toList c3Data c3It2) := by
  refine ⟨by decide, by decide, by decide⟩

/-- C3 as amended: for a fixed iteration order the pipeline is a pure
function, and across any two runs (any two iteration orders of the
decoded map) the alias table and the resolver's candidate list are
determined up to permutation — the candidate lists of two runs contain
the same candidates, though possibly in different orders. -/
theorem c3_determinism_amended (fs : FS) (cfg : ScanConfig)
    (cfgDir baseDir sp : Str) (data : TSConfigData)
    (it1 it2 : List (Str × List Str))
    (h1 : it1.Perm data.paths) (h2 : it2.Perm data.paths) :
    (parseAliasesOrd cfgDir data it1).Perm (parseAliasesOrd cfgDir data it2) ∧
    (resolveImportPath fs cfg baseDir sp (parseAliasesOrd cfgDir data it1)).Perm
      (resolveImportPath fs cfg baseDir sp (parseAliasesOrd cfgDir data it2)) := by
  have hp := parseAliasesOrd_perm cfgDir data it1 it2 (h1.trans h2.symm)
  refine ⟨hp, ?_⟩
  unfold resolveImportPath
  by_cases hrel : hasPre sp ".".toList = true
  · rw [if_pos hrel, if_pos hrel]
  · rw [if_neg hrel, if_neg hrel]
    exact aliasCandidates_perm fs cfg sp hp

/-- Witness for C3 as amended, at the two concrete iteration orders of
the fixture configuration. -/
theorem c3_witness :
    (resolveImportPath c3FS defaultConfig "/proj/app".toList "@a/m".toList
        (parseAliasesOrd "/proj".toList c3Data c3Data.paths)).Perm
      (resolveImportPath c3FS defaultConfig "/proj/app".toList "@a/m".toList
        (parseAliasesOrd "/proj".toList c3Data c3It2)) :=
  (c3_determinism_amended c3FS defaultConfig "/proj".toList "/proj/app".toList
      "@a/m".toList c3Data c3Data.paths c3It2 (List.Perm.refl _) (by decide)).2

theorem isUniSpace_eq_false_of_word {c : Char} (h : isWordChar c = true) :
    isUniSpace c = false := by
  by_contra hcon
  have hsp : isUniSpace c = true := by
    cases hb : isUniSpace c
    · exact absurd hb hcon
    · rfl
  have : c = ' ' ∨ c = '\t' ∨ c = '\n' ∨ c = '\r' ∨ c = '\x0b' ∨ c = '\x0c' := by
    unfold isUniSpace at hsp
    simp only [Bool.or_eq_true, beq_iff_eq] at hsp
    tauto
  rcases this with rfl | rfl | rfl | rfl | rfl | rfl <;> exact absurd h (by decide)

theorem trimSpace_no_trim (a : Char) (mid : Str) (b : Char)
    (ha : isUniSpace a = false) (hb : isUniSpace b = false) :
    trimSpace (a :: (mid ++ [b])) = a :: (mid ++ [b]) := by
  unfold trimSpace
  rw [List.dropWhile_cons_of_neg (by simp [ha])]
  have h1 : (a :: (mid ++ [b])).reverse = b :: (mid.reverse ++ [a]) := by simp
  rw [h1, List.dropWhile_cons_of_neg (by simp [hb]), ← h1, List.reverse_reverse]

theorem splitComma_of_no_comma :
    ∀ l : Str, (∀ c ∈ l, (c == ',') = false) → splitComma l = [l] := by
  intro l
  induction l with
  | nil => intro _; rfl
  | cons c cs ih =>
      intro h
      have hc : (c == ',') = false := h c (List.mem_cons_self c cs)
      have hcs := ih (fun x hx => h x (List.mem_cons_of_mem c hx))
      show (if c == ',' then [] :: splitComma cs
            else match splitComma cs with
              | [] => [[c]]
              | h :: t => (c :: h) :: t) = [c :: cs]
      rw [hc, hcs]
      rfl

/-- C4: a named-import list entry of the form `Original as Alias`
(identifier-like original and alias) contributes exactly the local
alias name, never the original exported name, to the bound names. -/
theorem c4_renamed_entry_keeps_alias (orig al : Str)
    (ho : orig ≠ []) (ha : al ≠ [])
    (how : ∀ c ∈ orig, isWordChar c = true)
    (haw : ∀ c ∈ al, isWordChar c = true)
    (hnt : orig ≠ "type".toList) :
    parseNamedEntry (orig ++ " as ".toList ++ al) = [al] ∧
    parseNamedSpecifiers (orig ++ " as ".toList ++ al) = [al] := by
  have hE : orig ++ " as ".toList ++ al = orig ++ (' ' :: 'a' :: 's' :: ' ' :: al) := by
    rw [List.append_assoc]
    rfl
  rw [hE]
  -- the entry is not trimmed: it starts and ends with word characters
  have htrim : trimSpace (orig ++ (' ' :: 'a' :: 's' :: ' ' :: al))
      = orig ++ (' ' :: 'a' :: 's' :: ' ' :: al) := by
    cases orig with
    | nil => exact absurd rfl ho
    | cons o0 os =>
        rcases al.eq_nil_or_concat with rfl | ⟨L, b, rfl⟩
        · exact absurd rfl ha
        · have hsh : (o0 :: os) ++ (' ' :: 'a' :: 's' :: ' ' :: L.concat b)
              = o0 :: ((os ++ (' ' :: 'a' :: 's' :: ' ' :: L)) ++ [b]) := by simp
          rw [hsh]
          exact trimSpace_no_trim o0 _ b
            (isUniSpace_eq_false_of_word (how o0 (by simp)))
            (isUniSpace_eq_false_of_word (haw b (by simp)))
  -- the word-character head of the entry is exactly the original name
  have htw : (orig ++ (' ' :: 'a' :: 's' :: ' ' :: al)).takeWhile isWordChar = orig := by
    rw [List.takeWhile_append_of_pos how,
      List.takeWhile_cons_of_neg (by decide), List.append_nil]
  -- the entry is not a per-specifier type-only marker
  have hty : hasPre (orig ++ (' ' :: 'a' :: 's' :: ' ' :: al)) "type ".toList = false := by
    cases hb : hasPre (orig ++ (' ' :: 'a' :: 's' :: ' ' :: al)) "type ".toList
    · rfl
    · exfalso
      obtain ⟨r, hr⟩ := (hasPre_iff _ _).mp hb
      have hr2 : orig ++ (' ' :: 'a' :: 's' :: ' ' :: al)
          = "type".toList ++ (' ' :: r) := hr
      have : (orig ++ (' ' :: 'a' :: 's' :: ' ' :: al)).takeWhile isWordChar
          = "type".toList := by
        rw [hr2, List.takeWhile_append_of_pos (by decide),
          List.takeWhile_cons_of_neg (by decide), List.append_nil]
      rw [htw] at this
      exact hnt this
  -- the rename regexp captures exactly the alias
  have hnre : (al.reverse).isEmpty = false := by
    cases hLb : al.reverse with
    | nil => exact absurd (List.reverse_eq_nil_iff.mp hLb) ha
    | cons x xs => rfl
  have hrev : (orig ++ (' ' :: 'a' :: 's' :: ' ' :: al)).reverse
      = al.reverse ++ (' ' :: 's' :: 'a' :: ' ' :: orig.reverse) := by
    simp
  have htw2 : ((orig ++ (' ' :: 'a' :: 's' :: ' ' :: al)).reverse).takeWhile isWordChar
      = al.reverse := by
    rw [hrev, List.takeWhile_append_of_pos
        (fun a hmem => haw a (List.mem_reverse.mp hmem)),
      List.takeWhile_cons_of_neg (by decide), List.append_nil]
  have hma : matchAsAlias (orig ++ (' ' :: 'a' :: 's' :: ' ' :: al)) = some al := by
    unfold matchAsAlias
    simp only []
    rw [htw2, hnre, hrev, List.drop_left]
    have hsp : List.takeWhile isRegexSpace (' ' :: 's' :: 'a' :: ' ' :: orig.reverse)
        = [' '] := by
      rw [List.takeWhile_cons_of_pos (by decide), List.takeWhile_cons_of_neg (by decide)]
    rw [hsp]
    rw [show List.drop ([' '] : Str).length (' ' :: 's' :: 'a' :: ' ' :: orig.reverse)
          = 's' :: 'a' :: ' ' :: orig.reverse from rfl]
    rw [show hasPre ('s' :: 'a' :: ' ' :: orig.reverse) "sa".toList = true from rfl]
    simp [isRegexSpace, List.reverse_reverse]
  -- assemble
  have hentry : parseNamedEntry (orig ++ (' ' :: 'a' :: 's' :: ' ' :: al)) = [al] := by
    unfold parseNamedEntry
    simp only []
    rw [htrim]
    have hie : (orig ++ (' ' :: 'a' :: 's' :: ' ' :: al)).isEmpty = false := by
      cases orig with
      | nil => exact absurd rfl ho
      | cons o0 os => rfl
    rw [hie, hty, hma]
    rfl
  refine ⟨hentry, ?_⟩
  unfold parseNamedSpecifiers
  have hsplit : splitComma (orig ++ (' ' :: 'a' :: 's' :: ' ' :: al))
      = [orig ++ (' ' :: 'a' :: 's' :: ' ' :: al)] := by
    apply splitComma_of_no_comma
    intro c hc
    cases hcc : (c == ',')
    · rfl
    · exfalso
      rw [beq_iff_eq] at hcc
      subst hcc
      rcases List.mem_append.mp hc with hc1 | hc2
      · exact absurd (how _ hc1) (by decide)
      · have h5 : (',' : Char) ∈ al := by simpa using hc2
        exact absurd (haw _ h5) (by decide)
  rw [hsplit]
  simp [hentry]

/-- Witness for C4 at the entry `Panel as P`. -/
theorem c4_witness :
    parseNamedEntry "Panel as P".toList = ["P".toList] ∧
    parseNamedSpecifiers "Panel as P".toList = ["P".toList] := by
  have h := c4_renamed_entry_keeps_alias "Panel".toList "P".toList
    (by decide) (by decide) (by decide) (by decide) (by decide)
  exact h

theorem parseImportsStep_no_start (rs : List ImportInfo) (line : Str)
    (h : hasPre (trimSpace line) "import ".toList = false) :
    parseImportsStep (rs, []) line = (rs, []) := by
  have hl : hasPre (trimSpace line) ['i', 'm', 'p', 'o', 'r', 't', ' '] = false := h
  unfold parseImportsStep
  simp [hl]

theorem parseImportsStep_start_complete (rs : List ImportInfo) (line : Str)
    (h : hasPre (trimSpace line) "import ".toList = true)
    (hq : (containsSub (trimSpace line) ['"'] || containsSub (trimSpace line) [sqc]) = true)
    (hn : parseImportStatement (trimSpace line) = none) :
    parseImportsStep (rs, []) line = (rs, []) := by
  have hl : hasPre (trimSpace line) ['i', 'm', 'p', 'o', 'r', 't', ' '] = true := h
  have hne : trimSpace line ≠ [] := by
    intro h0
    rw [h0] at hl
    exact absurd hl (by decide)
  unfold parseImportsStep
  simp only [Bool.or_eq_true] at hq
  simp [hl, hne, hq, hn]

theorem parseImportsStep_start_incomplete (rs : List ImportInfo) (line : Str)
    (h : hasPre (trimSpace line) "import ".toList = true)
    (hq : (containsSub (trimSpace line) ['"'] || containsSub (trimSpace line) [sqc]) = false) :
    parseImportsStep (rs, []) line = (rs, trimSpace line) := by
  have hl : hasPre (trimSpace line) ['i', 'm', 'p', 'o', 'r', 't', ' '] = true := h
  unfold parseImportsStep
  simp only [Bool.or_eq_false_iff] at hq
  simp [hl, hq.1, hq.2]

/-- C5: a statement matching the type-only pattern `import type …`
produces no `ImportInfo` record at all, and a file whose single line is
such a statement acquires no marked names on any filesystem — even one
where the import's target would carry the directive. -/
theorem c5_type_only_import_no_record (stmt : Str) (fs : FS) (cfg : ScanConfig)
    (aliases : List PathAlias) (baseDir : Str) :
    (isTypeImport stmt = true → parseImportStatement stmt = none) ∧
    (isTypeImport (trimSpace stmt) = true →
      clientComponents fs cfg aliases baseDir [stmt] = []) := by
  have hpart1 : ∀ s : Str, isTypeImport s = true → parseImportStatement s = none := by
    intro s h
    unfold parseImportStatement
    rw [if_pos h]
  refine ⟨hpart1 stmt, ?_⟩
  intro h
  have hparse : parseImports [stmt] = [] := by
    unfold parseImports
    show (parseImportsStep ([], []) stmt).1 = []
    cases hp : hasPre (trimSpace stmt) "import ".toList with
    | false => rw [parseImportsStep_no_start [] stmt hp]
    | true =>
        cases hq : (containsSub (trimSpace stmt) ['"'] || containsSub (trimSpace stmt) [sqc]) with
        | true => rw [parseImportsStep_start_complete [] stmt hp hq (hpart1 _ h)]
        | false => rw [parseImportsStep_start_incomplete [] stmt hp hq]
  unfold clientComponents
  rw [hparse]
  rfl

/-- The type-only import statement used as the C5 witness input. -/
def c5Stmt : Str :=
  "import type \x7b Foo \x7d from ".toList ++ sqc :: "./x".toList ++ [sqc]

/-- Witness for C5 at a concrete type-only import statement. -/
theorem c5_witness :
    parseImportStatement c5Stmt = none ∧
    clientComponents emptyFS defaultConfig [] ".".toList [c5Stmt] = [] := by
  have h := c5_type_only_import_no_record c5Stmt emptyFS defaultConfig [] ".".toList
  exact ⟨h.1 (by decide), h.2 (by decide)⟩

theorem parseImports_no_start_aux :
    ∀ (lines : List Str) (rs : List ImportInfo),
      (∀ l ∈ lines, hasPre (trimSpace l) "import ".toList = false) →
      List.foldl parseImportsStep (rs, []) lines = (rs, []) := by
  intro lines
  induction lines with
  | nil => intro rs _; rfl
  | cons l ls ih =>
      intro rs h
      rw [List.foldl_cons, parseImportsStep_no_start rs l (h l (by simp))]
      exact ih rs (fun x hx => h x (by simp [hx]))

/-- C10: the import extractor only begins accumulating at a trimmed
line starting with the literal `import` followed by a single space; a
file none of whose trimmed lines start that way — for example one
whose import is written without whitespace after the keyword — yields
no `ImportInfo` records and no marked names on any filesystem. -/
theorem c10_import_space_required (fs : FS) (cfg : ScanConfig)
    (aliases : List PathAlias) (baseDir : Str) (lines : List Str)
    (h : ∀ l ∈ lines, hasPre (trimSpace l) "import ".toList = false) :
    parseImports lines = [] ∧
    clientComponents fs cfg aliases baseDir lines = [] := by
  have hparse : parseImports lines = [] := by
    unfold parseImports
    rw [parseImports_no_start_aux lines [] h]
  refine ⟨hparse, ?_⟩
  unfold clientComponents
  rw [hparse]
  rfl

/-- The spaceless import line used as the C10 witness input. -/
def c10Line : Str :=
  "import\x7bFoo\x7dfrom".toList ++ sqc :: "./x".toList ++ [sqc]

/-- Witness for C10: an import written without whitespace after the
keyword produces no record and no marks. -/
theorem c10_witness :
    parseImports [c10Line, "const a = 1;".toList] = [] ∧
    clientComponents emptyFS defaultConfig [] ".".toList
      [c10Line, "const a = 1;".toList] = [] :=
  c10_import_space_required emptyFS defaultConfig [] ".".toList
    [c10Line, "const a = 1;".toList] (by decide)

/-- C8: failures degrade without aborting — an unopenable candidate is
reported unmarked; when every configuration read fails (missing or
unparsable), the alias table used by the scan is empty; the per-file
scan sequence always processes each file and moves on; and an
unreadable source file contributes no report lines (its error is only
logged) while subsequent files are still processed. -/
theorem c8_graceful_degradation (fs : FS) (cfg : ScanConfig)
    (iter : TSConfigData → List (Str × List Str)) (p baseDir f : Str)
    (files : List Str) :
    (fs.headLines p = none → fileHasDirective fs cfg p = false) ∧
    ((∀ q, fs.readConfig q = none) →
      (loadPathAliases fs iter baseDir).getD [] = []) ∧
    (scanFiles fs cfg iter (f :: files)
      = scanFileReport fs cfg iter f ++ scanFiles fs cfg iter files) ∧
    (fs.readLines f = none → scanFileReport fs cfg iter f = []) := by
  refine ⟨?_, ?_, rfl, ?_⟩
  · intro h
    unfold fileHasDirective
    rw [h]
  · intro h
    have haux : ∀ (fuel : Nat) (dir : Str),
        (loadPathAliasesAux fs iter fuel dir).getD [] = [] := by
      intro fuel
      induction fuel with
      | zero => intro dir; rfl
      | succ n ih =>
          intro dir
          show (match findConfigIn fs dir with
                | some cp => parseAliasesFS fs iter cp
                | none =>
                    let parent := parentDir dir
                    if parent == dir then some []
                    else loadPathAliasesAux fs iter n parent).getD [] = []
          cases hf : findConfigIn fs dir with
          | some cp =>
              show (match fs.readConfig cp with
                    | none => none
                    | some data =>
                        some (parseAliasesOrd (parentDir cp) data (iter data))).getD [] = []
              rw [h cp]
              rfl
          | none =>
              simp only []
              cases hp : (parentDir dir == dir) with
              | true => rfl
              | false => exact ih (parentDir dir)
    exact haux _ baseDir
  · intro h
    unfold scanFileReport
    rw [h]

/-- Witness for C8 on a filesystem where every query fails. -/
theorem c8_witness :
    fileHasDirective emptyFS defaultConfig "a.tsx".toList = false ∧
    (loadPathAliases emptyFS (fun d => d.paths) "/a/b".toList).getD [] = [] ∧
    scanFiles emptyFS defaultConfig (fun d => d.paths)
        ("f.tsx".toList :: ["g.tsx".toList])
      = scanFileReport emptyFS defaultConfig (fun d => d.paths) "f.tsx".toList ++
          scanFiles emptyFS defaultConfig (fun d => d.paths) ["g.tsx".toList] ∧
    scanFileReport emptyFS defaultConfig (fun d => d.paths) "f.tsx".toList = [] := by
  have h := c8_graceful_degradation emptyFS defaultConfig (fun d => d.paths)
    "a.tsx".toList "/a/b".toList "f.tsx".toList ["g.tsx".toList]
  exact ⟨h.1 rfl, h.2.1 (fun q => rfl), h.2.2.1, h.2.2.2 rfl⟩
